import Mathlib

/-!
Verification of the javadoc-processing module: the Reference model
(`JavaRef`), the import resolver, the syntax-tree repository and its
navigation helpers, and the documentation-comment translator.
Strings are modelled as `List Char`; Python `str.split` / `str.join`
are modelled by `pySplit` / `pyJoin`.
-/

/-- Python `text.split(sep)` on character lists: splits on every
occurrence of `sep`, keeping empty chunks; `pySplit sep [] = [[]]`. -/
def pySplit (sep : Char) : List Char → List (List Char)
  | [] => [[]]
  | c :: rest =>
    match pySplit sep rest with
    | [] => [[]]
    | w :: ws => if c = sep then [] :: w :: ws else (c :: w) :: ws

/-- Python `sep.join(chunks)` on character lists. -/
def pyJoin (sep : Char) : List (List Char) → List Char
  | [] => []
  | [w] => w
  | w :: ws => w ++ sep :: pyJoin sep ws

/-- The parsed form of a javadoc-style reference target, as built by
`JavaRef.__init__`: an optional package, the class portion (a `$`-joined
nesting chain), and an optional member name. -/
structure JavaRef where
  package : Option (List Char)
  classname : List Char
  membername : Option (List Char)
deriving DecidableEq, Repr

/-- Model of `JavaRef.__init__(target, membername)`: split off the package at the
last `.`; if no explicit member name was given, split off the member name
at the `#`; what remains is the classname. -/
def JavaRef.parse (target : List Char) (mn : Option (List Char)) : JavaRef :=
  let parts := pySplit '.' target
  let pkg : Option (List Char) :=
    if parts.length > 1 then some (pyJoin '.' parts.dropLast) else none
  let target1 := if parts.length > 1 then parts.getLastD [] else target
  match mn with
  | some m => { package := pkg, classname := target1, membername := some m }
  | none =>
    let hparts := pySplit '#' target1
    if hparts.length > 1 then
      { package := pkg, classname := hparts.headD [],
        membername := some (hparts.getD 1 []) }
    else
      { package := pkg, classname := target1, membername := none }

/-- Derived field `self.simple_classnames = self.classname.split('$')`. -/
def JavaRef.simple_classnames (r : JavaRef) : List (List Char) :=
  pySplit '$' r.classname

/-- Derived field `self.outer_classname = self.simple_classnames[0]`. -/
def JavaRef.outer_classname (r : JavaRef) : List Char :=
  r.simple_classnames.headD []

/-- Derived field `self.simple_classname = self.simple_classnames[-1]`. -/
def JavaRef.simple_classname (r : JavaRef) : List Char :=
  r.simple_classnames.getLastD []

/-- Derived field `self.simple_inner_classnames = self.simple_classnames[1:]`. -/
def JavaRef.simple_inner_classnames (r : JavaRef) : List (List Char) :=
  r.simple_classnames.tail

/-- Derived field `self.full_classname = '.'.join([self.package, self.classname])`,
absent when the reference has no package. -/
def JavaRef.full_classname (r : JavaRef) : Option (List Char) :=
  match r.package with
  | none => none
  | some p => some (p ++ '.' :: r.classname)

/-- Model of `JavaRef.__str__`: classname, prefixed by `package.` when present,
suffixed by `#membername` when present. -/
def JavaRef.toString (r : JavaRef) : List Char :=
  let out := r.classname
  let out := match r.package with
    | some p => p ++ '.' :: out
    | none => out
  match r.membername with
  | some m => out ++ '#' :: m
  | none => out

/-- One `import` statement of a compilation unit (`imp.path`). -/
structure ImportDecl where
  path : List Char
deriving DecidableEq, Repr

/-- The error taxonomy of the module: each constructor carries the data
interpolated into the corresponding raised message in the source. -/
inductive JdocError where
  | unresolvedReference (target : List Char)
  | outerClassNotFound (outer : List Char) (file : List Char)
  | innerClassNotFound (inner : List Char) (enclosing : List Char) (file : List Char)
  | fieldNotFound (name : List Char)
  | methodNotFound (name : List Char)
deriving DecidableEq, Repr

/-- The test `imp.path.endswith('.%s' % ref.simple_classname)`. -/
def importMatches (sc : List Char) (imp : ImportDecl) : Bool :=
  List.isSuffixOf ('.' :: sc) imp.path

/-- Model of `ImportResolver.resolve`: parse the target, scan the imports in
declaration order for the first whose path ends with `.` followed by the
target's simple classname, and build a new reference from that import
path, carrying over the target's member name; raise otherwise. -/
def resolve (imports : List ImportDecl) (target : List Char) :
    Except JdocError JavaRef :=
  let ref := JavaRef.parse target none
  match imports.find? (importMatches ref.simple_classname) with
  | some imp => .ok (JavaRef.parse imp.path ref.membername)
  | none => .error (.unresolvedReference target)

/-- The `ast_cache` read/parse/store step of `get_class_ast`: return the
cached tree when the path is present, otherwise run the parser and store
the result under the path.  The `Bool` records whether a parse ran. -/
def loadTree {α : Type} (parseFile : List Char → α)
    (cache : List (List Char × α)) (path : List Char) :
    α × List (List Char × α) × Bool :=
  match cache.lookup path with
  | some t => (t, cache, false)
  | none =>
    let t := parseFile path
    (t, (path, t) :: cache, true)

mutual
/-- A type declaration in a syntax tree: a name and a body of members. -/
inductive Decl where
  | node (name : List Char) (body : List BodyMember) : Decl
/-- A body member is either a nested type declaration or some other
member (field, method, ...), mirroring the
`isinstance(member, javalang.tree.TypeDeclaration)` filter. -/
inductive BodyMember where
  | typeDecl (d : Decl) : BodyMember
  | otherMember : BodyMember
end

def Decl.name : Decl → List Char
  | .node n _ => n

def Decl.body : Decl → List BodyMember
  | .node _ b => b

/-- The filter `[member for member in ast.body if isinstance(member, TypeDeclaration)]`. -/
def Decl.subtypes (d : Decl) : List Decl :=
  d.body.filterMap (fun m =>
    match m with
    | .typeDecl t => some t
    | .otherMember => none)

/-- Helper `find_type` inside `get_class_ast`: first declaration in the list
whose name equals `name`. -/
def find_type (name : List Char) (classtypes : List Decl) : Option Decl :=
  classtypes.find? (fun t => t.name == name)

/-- The nested-class descent loop of `get_class_ast`: for each name of
the inner-class chain, look the name up among the current declaration's
nested type declarations; on a miss, raise an error naming the missing
inner class, the enclosing declaration and the source file. -/
def descend (ast : Decl) (chain : List (List Char)) (file : List Char) :
    Except JdocError Decl :=
  match chain with
  | [] => .ok ast
  | name :: rest =>
    match find_type name ast.subtypes with
    | some t => descend t rest file
    | none => .error (.innerClassNotFound name ast.name file)

/-- Documentation-bearing attributes shared by fields and methods:
`thing.documentation` and `thing.modifiers`. -/
structure Doc where
  documentation : Option (List Char)
  modifiers : List (List Char)
deriving DecidableEq, Repr

/-- A field group (one declaration possibly introducing several
declarators, as in `int a, b;`); declarators are recorded by name. -/
structure FieldDecl where
  info : Doc
  declarators : List (List Char)
deriving DecidableEq, Repr

/-- A method declaration. -/
structure Method where
  info : Doc
  name : List Char
deriving DecidableEq, Repr

/-- The test `'public' in thing.modifiers`. -/
def is_public (t : Doc) : Bool :=
  t.modifiers.contains ("public".toList)

/-- Model of `should_show`: `thing.documentation is not None and is_public(thing)`. -/
def should_show (t : Doc) : Bool :=
  t.documentation.isSome && is_public t

/-- Helper `find_field` attached by `get_class_ast`: scan the field groups, and
inside each group its declarators, returning the group of the first
declarator whose name matches; raise otherwise. -/
def find_field (fields : List FieldDecl) (name : List Char) :
    Except JdocError FieldDecl :=
  match fields.find? (fun f => f.declarators.any (fun d => d == name)) with
  | some f => .ok f
  | none => .error (.fieldNotFound name)

def lbrace : Char := Char.ofNat 123

def rbrace : Char := Char.ofNat 125

def backquote : Char := Char.ofNat 96

/-- The literal head of a link marker, `@link ` preceded by an opening
brace. -/
def linkHead : List Char := lbrace :: "@link ".toList

/-- One match of the regex used by `Javadoc._translate` (an opening
brace, `@link `, one or more characters other than a closing brace, then
a closing brace) at the very start of `s`: returns the captured target
and the remainder after the match, the latter bundled with the fact that
the match consumed at least one character. -/
def matchLink : (s : List Char) → Option (List Char × { t : List Char // t.length < s.length })
  | [] => none
  | c :: rest =>
    if c = lbrace ∧ List.isPrefixOf "@link ".toList rest ∧
        (rest.drop 6).takeWhile (fun ch => ch != rbrace) ≠ [] ∧
        (rest.drop 6).dropWhile (fun ch => ch != rbrace) ≠ [] then
      some ((rest.drop 6).takeWhile (fun ch => ch != rbrace),
        ⟨((rest.drop 6).dropWhile (fun ch => ch != rbrace)).tail, by
          have h1 : ((rest.drop 6).dropWhile (fun ch => ch != rbrace)).length ≤
              (rest.drop 6).length :=
            ((List.dropWhile_suffix _).sublist).length_le
          have h2 : (((rest.drop 6).dropWhile (fun ch => ch != rbrace)).tail).length ≤
              ((rest.drop 6).dropWhile (fun ch => ch != rbrace)).length := by
            simp [List.length_tail]
          have h3 : (rest.drop 6).length ≤ rest.length := by
            simp [List.length_drop]
          simp only [List.length_cons]
          omega⟩)
    else none

/-- The replacement text built by `link_resolver`:
`':java:ref:`%s`' % str(ref)`. -/
def rstOf (s : List Char) : List Char :=
  ":java:ref:".toList ++ backquote :: (s ++ [backquote])

/-- The body of `link_resolver`: resolve the captured target against the
imports and serialize the result into a cross-reference marker; a
resolution failure propagates. -/
def linkResolver (imports : List ImportDecl) (target : List Char) :
    Except JdocError (List Char) :=
  match resolve imports target with
  | .ok ref => .ok (rstOf ref.toString)
  | .error e => .error e

/-- Model of `re.sub` with the link regex: scan left to right; at each match,
emit the replacement and continue after the match (non-overlapping);
elsewhere copy the character through.  A failing replacement propagates,
as the exception does in the source. -/
def linkSub (repl : List Char → Except JdocError (List Char)) :
    List Char → Except JdocError (List Char)
  | [] => .ok []
  | c :: rest =>
    match matchLink (c :: rest) with
    | some (tgt, ⟨after, _⟩) =>
      match repl tgt, linkSub repl after with
      | .ok r, .ok out => .ok (r ++ out)
      | .error e, _ => .error e
      | .ok _, .error e => .error e
    | none =>
      match linkSub repl rest with
      | .ok out => .ok (c :: out)
      | .error e => .error e
termination_by s => s.length
decreasing_by
  · exact ‹after.length < (c :: rest).length›
  · simp

/-- Model of `Javadoc._translate`: rewrite every `@link` marker of the text via
the import resolver bound to the comment's compilation unit. -/
def Javadoc.translate (imports : List ImportDecl) (text : List Char) :
    Except JdocError (List Char) :=
  linkSub (linkResolver imports) text

/-- The literal text of a link marker with target `x`. -/
def markerOf (x : List Char) : List Char := linkHead ++ x ++ [rbrace]

/-- A comment text assembled from plain segments interleaved with link
markers: `t0 {@link x1} t1 {@link x2} t2 ...`. -/
def chunksIn : List Char → List (List Char × List Char) → List Char
  | t, [] => t
  | t, (x, u) :: rest => t ++ markerOf x ++ chunksIn u rest

/-- The expected translation of `chunksIn`: each marker replaced by the
cross-reference marker for its own resolved target, segments unchanged. -/
def chunksOut (imports : List ImportDecl) :
    List Char → List (List Char × List Char) → List Char
  | t, [] => t
  | t, (x, u) :: rest =>
    t ++ (match resolve imports x with
          | .ok r => rstOf r.toString
          | .error _ => []) ++ chunksOut imports u rest

/-- Predicate matching `Except.ok` as a plain Bool. -/
def exceptOk {ε α : Type} : Except ε α → Bool
  | .ok _ => true
  | .error _ => false

/-- An enum constant entry of `ast.body.constants`. -/
structure EnumConstant where
  name : List Char
  documentation : Option (List Char)
deriving DecidableEq, Repr

/-- The declaration handed to `JavaClassDirective.run`: name, field
groups, methods, and — when the declaration is an enum — its constants. -/
structure ClassAst where
  name : List Char
  fields : List FieldDecl
  methods : List Method
  isEnum : Bool
  constants : List EnumConstant
deriving DecidableEq, Repr

def make_method_signature (m : Method) : List Char := m.name

/-- The two lines appended for a member's javadoc when its documentation
is present (`if thing.documentation is not None:` in the source), and
nothing otherwise. -/
def docLines (jd : List Char → List Char) : Option (List Char) → List (List Char)
  | some doc => ['\t' :: jd doc, []]
  | none => []

/-- Model of `JavaClassDirective.run`, up to the final rst parse: the list of rst
lines assembled for the class page.  `jd` is the description renderer
(`Javadoc(text, ast.imports).description`), a parameter because the
javadoc comment parser is an external component. -/
def run (jd : List Char → List Char) (ast : ClassAst) : List (List Char) :=
  let fields := ast.fields.filter (fun f => should_show f.info)
  let methods := ast.methods.filter (fun m => should_show m.info)
  ([ast.name, List.replicate ast.name.length '=', []] : List (List Char)) ++
  (if fields.length > 0 then
    ["Properties".toList, "----------".toList, []] ++
    fields.flatMap (fun f =>
      f.declarators.flatMap (fun d =>
        [".. py:attribute:: ".toList ++ d, []] ++ docLines jd f.info.documentation))
   else []) ++
  (if methods.length > 0 then
    ["Methods".toList, "-------".toList, []] ++
    methods.flatMap (fun m =>
      [".. py:method:: ".toList ++ make_method_signature m, []] ++
      docLines jd m.info.documentation)
   else []) ++
  (if ast.isEnum then
    ["Constants".toList, "-----------".toList, []] ++
    ast.constants.flatMap (fun v =>
      [".. py:attribute:: ".toList ++ v.name, []] ++ docLines jd v.documentation)
   else []) ++
  (if fields.length > 0 || methods.length > 0 || ast.isEnum then []
   else ["*(This topic does not yet have documentation)*".toList])

/-- The class-name header block of `JavaClassDirective.run`. -/
def headerSection (ast : ClassAst) : List (List Char) :=
  [ast.name, List.replicate ast.name.length '=', []]

/-- The Properties block of `JavaClassDirective.run` for the given
(already visibility-filtered) field groups. -/
def fieldsSection (jd : List Char → List Char) (fields : List FieldDecl) :
    List (List Char) :=
  if fields.length > 0 then
    ["Properties".toList, "----------".toList, []] ++
    fields.flatMap (fun f =>
      f.declarators.flatMap (fun d =>
        [".. py:attribute:: ".toList ++ d, []] ++ docLines jd f.info.documentation))
  else []

/-- The Methods block of `JavaClassDirective.run` for the given
(already visibility-filtered) methods. -/
def methodsSection (jd : List Char → List Char) (methods : List Method) :
    List (List Char) :=
  if methods.length > 0 then
    ["Methods".toList, "-------".toList, []] ++
    methods.flatMap (fun m =>
      [".. py:method:: ".toList ++ make_method_signature m, []] ++
      docLines jd m.info.documentation)
  else []

/-- The Constants block of `JavaClassDirective.run`: one entry per enum
constant, in declaration order, each with its javadoc when present. -/
def constantsSection (jd : List Char → List Char) (cs : List EnumConstant) :
    List (List Char) :=
  ["Constants".toList, "-----------".toList, []] ++
  cs.flatMap (fun v =>
    [".. py:attribute:: ".toList ++ v.name, []] ++ docLines jd v.documentation)

/-- A reference string assembled from its grammatical components:
`[package.]Name[$Name...][#member]`. -/
def mkRefString (pkg : Option (List Char)) (names : List (List Char))
    (mem : Option (List Char)) : List Char :=
  (match pkg with
   | some p => p ++ ['.']
   | none => []) ++
  pyJoin '$' names ++
  (match mem with
   | some m => '#' :: m
   | none => [])

/-- Successful descent: `Reaches d chain e` holds when following the
inner-class chain from `d`, matching each name among the nested type
declarations, ends at `e`. -/
inductive Reaches : Decl → List (List Char) → Decl → Prop where
  | nil (d : Decl) : Reaches d [] d
  | cons {d t e : Decl} {rest : List (List Char)} (n : List Char)
      (hfind : find_type n d.subtypes = some t) (htail : Reaches t rest e) :
      Reaches d (n :: rest) e

/-- Sample member: present-but-empty documentation, public. -/
def emptyDocPublic : Doc :=
  { documentation := some [], modifiers := ["public".toList] }

/-- Sample field group `int a, b;` with a javadoc comment. -/
def abGroup : FieldDecl :=
  { info := { documentation := some "doc".toList, modifiers := ["public".toList] },
    declarators := ["a".toList, "b".toList] }

/-- Sample nested declaration `class Inner`. -/
def innerSample : Decl := .node "Inner".toList [.otherMember]

/-- Sample declaration `class Outer` containing `Inner`. -/
def outerSample : Decl :=
  .node "Outer".toList [.typeDecl innerSample, .otherMember]

/-- Sample enum declaration with a documented and an undocumented
constant. -/
def enumSample : ClassAst :=
  { name := "Color".toList, fields := [], methods := [], isEnum := true,
    constants :=
      [{ name := "RED".toList, documentation := some "warm".toList },
       { name := "GREEN".toList, documentation := none }] }
theorem pySplit_ne_nil (sep : Char) (s : List Char) : pySplit sep s ≠ [] := by
  cases s with
  | nil => simp [pySplit]
  | cons c rest =>
    simp only [pySplit]
    cases pySplit sep rest with
    | nil => simp
    | cons w ws =>
      by_cases h : c = sep <;> simp [h]

theorem pySplit_cons_eq {sep : Char} {rest w : List Char} {ws : List (List Char)}
    (c : Char) (h : pySplit sep rest = w :: ws) :
    pySplit sep (c :: rest) = if c = sep then [] :: w :: ws else (c :: w) :: ws := by
  simp only [pySplit, h]

theorem pySplit_dest (sep : Char) (s : List Char) :
    ∃ w ws, pySplit sep s = w :: ws := by
  rcases h : pySplit sep s with _ | ⟨w, ws⟩
  · exact absurd h (pySplit_ne_nil sep s)
  · exact ⟨w, ws, rfl⟩

theorem pyJoin_cons_cons (sep : Char) (w v : List Char) (vs : List (List Char)) :
    pyJoin sep (w :: v :: vs) = w ++ sep :: pyJoin sep (v :: vs) := rfl

theorem pyJoin_pySplit (sep : Char) (s : List Char) :
    pyJoin sep (pySplit sep s) = s := by
  induction s with
  | nil => rfl
  | cons c rest ih =>
    obtain ⟨w, ws, hw⟩ := pySplit_dest sep rest
    rw [pySplit_cons_eq c hw]
    rw [hw] at ih
    by_cases h : c = sep
    · rw [if_pos h, pyJoin_cons_cons, ih, h]
      simp
    · rw [if_neg h]
      cases ws with
      | nil => simpa [pyJoin] using ih
      | cons v vs =>
        rw [pyJoin_cons_cons] at ih ⊢
        simp [ih]

theorem not_mem_of_mem_pySplit (sep : Char) (s : List Char) :
    ∀ w ∈ pySplit sep s, sep ∉ w := by
  induction s with
  | nil => intro w hw; simp [pySplit] at hw; simp [hw]
  | cons c rest ih =>
    intro w hw
    obtain ⟨v, vs, hsplit⟩ := pySplit_dest sep rest
    rw [pySplit_cons_eq c hsplit] at hw
    rw [hsplit] at ih
    by_cases h : c = sep
    · rw [if_pos h] at hw
      rcases List.mem_cons.mp hw with hw | hw
      · simp [hw]
      · exact ih w hw
    · rw [if_neg h] at hw
      rcases List.mem_cons.mp hw with hw | hw
      · subst hw
        intro hmem
        rcases List.mem_cons.mp hmem with hmem | hmem
        · exact h hmem.symm
        · exact ih v (by simp) hmem
      · exact ih w (by simp [hw])

theorem mem_of_mem_pySplit (sep : Char) (s : List Char) :
    ∀ w ∈ pySplit sep s, ∀ c ∈ w, c ∈ s := by
  induction s with
  | nil => intro w hw; simp [pySplit] at hw; simp [hw]
  | cons a rest ih =>
    intro w hw c hc
    obtain ⟨v, vs, hsplit⟩ := pySplit_dest sep rest
    rw [pySplit_cons_eq a hsplit] at hw
    rw [hsplit] at ih
    by_cases h : a = sep
    · rw [if_pos h] at hw
      rcases List.mem_cons.mp hw with hw | hw
      · subst hw; simp at hc
      · exact List.mem_cons_of_mem a (ih w hw c hc)
    · rw [if_neg h] at hw
      rcases List.mem_cons.mp hw with hw | hw
      · subst hw
        rcases List.mem_cons.mp hc with hc | hc
        · simp [hc]
        · exact List.mem_cons_of_mem a (ih v (by simp) c hc)
      · exact List.mem_cons_of_mem a (ih w (by simp [hw]) c hc)

theorem pySplit_of_not_mem {sep : Char} {s : List Char} (h : sep ∉ s) :
    pySplit sep s = [s] := by
  induction s with
  | nil => rfl
  | cons c rest ih =>
    have hc : c ≠ sep := fun hc => h (by simp [hc])
    have hrest : sep ∉ rest := fun hr => h (by simp [hr])
    rw [pySplit_cons_eq c (ih hrest), if_neg hc]

theorem two_le_length_pySplit_of_mem {sep : Char} {s : List Char} (h : sep ∈ s) :
    2 ≤ (pySplit sep s).length := by
  induction s with
  | nil => simp at h
  | cons c rest ih =>
    obtain ⟨v, vs, hsplit⟩ := pySplit_dest sep rest
    rw [pySplit_cons_eq c hsplit]
    by_cases hc : c = sep
    · simp [hc]
    · rw [if_neg hc]
      rcases List.mem_cons.mp h with h | h
      · exact absurd h.symm hc
      · have := ih h
        rw [hsplit] at this
        simpa using this

theorem not_mem_of_pySplit_length_one {sep : Char} {s : List Char}
    (h : (pySplit sep s).length = 1) : sep ∉ s := by
  intro hmem
  have := two_le_length_pySplit_of_mem hmem
  omega

theorem pySplit_append_sep (sep : Char) (a b : List Char) :
    pySplit sep (a ++ sep :: b) = pySplit sep a ++ pySplit sep b := by
  induction a with
  | nil =>
    obtain ⟨v, vs, hsplit⟩ := pySplit_dest sep b
    rw [List.nil_append, pySplit_cons_eq sep hsplit, if_pos rfl, hsplit]
    rfl
  | cons c a' ih =>
    obtain ⟨v, vs, hsplit⟩ := pySplit_dest sep a'
    obtain ⟨u, us, hjoin⟩ := pySplit_dest sep (a' ++ sep :: b)
    rw [List.cons_append, pySplit_cons_eq c hjoin, pySplit_cons_eq c hsplit]
    rw [hsplit, hjoin] at ih
    obtain ⟨rfl, rfl⟩ : u = v ∧ us = vs ++ pySplit sep b := by
      constructor
      · exact (List.cons.injEq _ _ _ _ ▸ ih).1
      · exact (List.cons.injEq _ _ _ _ ▸ ih).2
    by_cases hc : c = sep <;> simp [hc]

theorem pySplit_pyJoin {sep : Char} {ws : List (List Char)} (hne : ws ≠ [])
    (hfree : ∀ w ∈ ws, sep ∉ w) : pySplit sep (pyJoin sep ws) = ws := by
  induction ws with
  | nil => exact absurd rfl hne
  | cons w ws ih =>
    cases ws with
    | nil =>
      simp only [pyJoin]
      exact pySplit_of_not_mem (hfree w (by simp))
    | cons v vs =>
      rw [pyJoin_cons_cons, pySplit_append_sep,
        pySplit_of_not_mem (hfree w (by simp)),
        ih (by simp) (fun u hu => hfree u (by simp [hu]))]
      simp

theorem getLastD_mem : ∀ (xs : List (List Char)) (l : List Char), xs ≠ [] →
    xs.getLastD l ∈ xs := by
  intro xs
  induction xs with
  | nil => intro l h; exact absurd rfl h
  | cons x rest ih =>
    intro l _
    cases rest with
    | nil => simp [List.getLastD]
    | cons y ys =>
      rw [List.getLastD_cons]
      exact List.mem_cons_of_mem x (ih x (by simp))

theorem headD_mem {l : List Char} {xs : List (List Char)} (h : xs ≠ []) :
    xs.headD l ∈ xs := by
  cases xs with
  | nil => exact absurd rfl h
  | cons x rest => simp


theorem getLastD_concat (xs : List (List Char)) (a d : List Char) :
    (xs ++ [a]).getLastD d = a := by
  induction xs generalizing d with
  | nil => rfl
  | cons x rest ih =>
    rw [List.cons_append, List.getLastD_cons]
    exact ih x

theorem length_pos_pySplit (sep : Char) (s : List Char) :
    0 < (pySplit sep s).length :=
  List.length_pos.mpr (pySplit_ne_nil sep s)

theorem pySplit_length_one {sep : Char} {s : List Char}
    (h : ¬ (pySplit sep s).length > 1) : (pySplit sep s).length = 1 := by
  have := length_pos_pySplit sep s
  omega

theorem target1_no_dot (t : List Char) :
    '.' ∉ (if (pySplit '.' t).length > 1 then (pySplit '.' t).getLastD [] else t) := by
  by_cases h : (pySplit '.' t).length > 1
  · rw [if_pos h]
    exact not_mem_of_mem_pySplit '.' t _ (getLastD_mem _ _ (pySplit_ne_nil '.' t))
  · rw [if_neg h]
    exact not_mem_of_pySplit_length_one (pySplit_length_one h)

theorem target1_chars (t : List Char) (c : Char)
    (hc : c ∈ (if (pySplit '.' t).length > 1 then (pySplit '.' t).getLastD [] else t)) :
    c ∈ t := by
  by_cases h : (pySplit '.' t).length > 1
  · rw [if_pos h] at hc
    exact mem_of_mem_pySplit '.' t _ (getLastD_mem _ _ (pySplit_ne_nil '.' t)) c hc
  · rw [if_neg h] at hc
    exact hc

theorem parse_none_classname_clean (t : List Char) :
    '.' ∉ (JavaRef.parse t none).classname ∧ '#' ∉ (JavaRef.parse t none).classname := by
  simp only [JavaRef.parse]
  set t1 := (if (pySplit '.' t).length > 1 then (pySplit '.' t).getLastD [] else t)
    with ht1def
  have hd1 : '.' ∉ t1 := target1_no_dot t
  by_cases hh : (pySplit '#' t1).length > 1
  · rw [if_pos hh]
    have hmem : (pySplit '#' t1).headD [] ∈ pySplit '#' t1 :=
      headD_mem (pySplit_ne_nil _ _)
    constructor
    · intro hc
      exact hd1 (mem_of_mem_pySplit '#' t1 _ hmem '.' hc)
    · exact not_mem_of_mem_pySplit '#' t1 _ hmem
  · rw [if_neg hh]
    exact ⟨hd1, not_mem_of_pySplit_length_one (pySplit_length_one hh)⟩

theorem simple_classname_clean (t : List Char) :
    '.' ∉ (JavaRef.parse t none).simple_classname ∧
    '#' ∉ (JavaRef.parse t none).simple_classname ∧
    '$' ∉ (JavaRef.parse t none).simple_classname := by
  obtain ⟨hd, hh⟩ := parse_none_classname_clean t
  have hmem : (JavaRef.parse t none).simple_classname ∈
      pySplit '$' (JavaRef.parse t none).classname := by
    simp only [JavaRef.simple_classname, JavaRef.simple_classnames]
    exact getLastD_mem _ _ (pySplit_ne_nil _ _)
  refine ⟨?_, ?_, not_mem_of_mem_pySplit '$' _ _ hmem⟩
  · exact fun hc => hd (mem_of_mem_pySplit '$' _ _ hmem '.' hc)
  · exact fun hc => hh (mem_of_mem_pySplit '$' _ _ hmem '#' hc)

/-- C3 counterexample: parsing the empty reference string does not fail;
it yields a reference with no package, no member, and an empty
classname. -/
theorem parse_empty_input :
    JavaRef.parse [] none = { package := none, classname := [], membername := none } := rfl

/-- C3 (amended): `JavaRef.__init__` never fails; malformed inputs
degrade gracefully — an input without a dot yields no package, an input
without a hash yields no member name. -/
theorem parse_never_fails (t : List Char) :
    ('.' ∉ t → (JavaRef.parse t none).package = none) ∧
    ('#' ∉ t → (JavaRef.parse t none).membername = none) := by
  constructor
  · intro h
    have h1 : pySplit '.' t = [t] := pySplit_of_not_mem h
    have h2 : ¬ (pySplit '.' t).length > 1 := by rw [h1]; simp
    simp only [JavaRef.parse, if_neg h2]
    split <;> rfl
  · intro h
    have ht1 : '#' ∉ (if (pySplit '.' t).length > 1 then (pySplit '.' t).getLastD [] else t) :=
      fun hc => h (target1_chars t '#' hc)
    have h1 : pySplit '#'
        (if (pySplit '.' t).length > 1 then (pySplit '.' t).getLastD [] else t) =
        [(if (pySplit '.' t).length > 1 then (pySplit '.' t).getLastD [] else t)] :=
      pySplit_of_not_mem ht1
    have h2 : ¬ (pySplit '#'
        (if (pySplit '.' t).length > 1 then (pySplit '.' t).getLastD [] else t)).length > 1 := by
      rw [h1]; simp
    simp only [JavaRef.parse, if_neg h2]

/-- C3 witness: a concrete dotless, hashless input parses with both
optional parts unset. -/
theorem parse_never_fails_witness :
    (JavaRef.parse "Foo".toList none).package = none ∧
    (JavaRef.parse "Foo".toList none).membername = none :=
  ⟨(parse_never_fails "Foo".toList).1 (by decide),
   (parse_never_fails "Foo".toList).2 (by decide)⟩

theorem mem_pyJoin (sep : Char) (ws : List (List Char)) (c : Char)
    (hc : c ∈ pyJoin sep ws) : c = sep ∨ ∃ w ∈ ws, c ∈ w := by
  induction ws with
  | nil => simp [pyJoin] at hc
  | cons w ws ih =>
    cases ws with
    | nil =>
      right
      exact ⟨w, by simp, by simpa [pyJoin] using hc⟩
    | cons v vs =>
      rw [pyJoin_cons_cons] at hc
      rcases List.mem_append.mp hc with h | h
      · right; exact ⟨w, by simp, h⟩
      · rcases List.mem_cons.mp h with h | h
        · left; exact h
        · rcases ih h with h | ⟨u, hu, hcu⟩
          · left; exact h
          · right; exact ⟨u, by simp [hu], hcu⟩

theorem parse_append_pkg (q rest : List Char) (hrest : '.' ∉ rest)
    (mn : Option (List Char)) :
    JavaRef.parse (q ++ '.' :: rest) mn =
      { package := some q,
        classname := (JavaRef.parse rest mn).classname,
        membername := (JavaRef.parse rest mn).membername } := by
  have hsplit : pySplit '.' (q ++ '.' :: rest) = pySplit '.' q ++ [rest] := by
    rw [pySplit_append_sep, pySplit_of_not_mem hrest]
  have hlen : (pySplit '.' (q ++ '.' :: rest)).length > 1 := by
    rw [hsplit]
    have := length_pos_pySplit '.' q
    simp only [List.length_append, List.length_cons, List.length_nil]
    omega
  have hlast : (pySplit '.' (q ++ '.' :: rest)).getLastD [] = rest := by
    rw [hsplit]
    exact getLastD_concat _ _ _
  have hpkg : pyJoin '.' (pySplit '.' (q ++ '.' :: rest)).dropLast = q := by
    rw [hsplit, List.dropLast_concat, pyJoin_pySplit]
  have hrlen : ¬ (pySplit '.' rest).length > 1 := by
    rw [pySplit_of_not_mem hrest]
    simp
  simp only [JavaRef.parse, if_pos hlen, if_neg hrlen, hlast, hpkg]
  cases mn with
  | some m => rfl
  | none =>
    by_cases hsharp : (pySplit '#' rest).length > 1
    · rw [if_pos hsharp, if_pos hsharp]
    · rw [if_neg hsharp, if_neg hsharp]

theorem parse_chain_only (chain : List Char) (hd : '.' ∉ chain) (hh : '#' ∉ chain) :
    JavaRef.parse chain none =
      { package := none, classname := chain, membername := none } := by
  have h2 : ¬ (pySplit '.' chain).length > 1 := by
    rw [pySplit_of_not_mem hd]
    simp
  have h3 : ¬ (pySplit '#' chain).length > 1 := by
    rw [pySplit_of_not_mem hh]
    simp
  simp only [JavaRef.parse, if_neg h2, if_neg h3]

theorem parse_chain_member (chain m : List Char) (hd : '.' ∉ chain) (hh : '#' ∉ chain)
    (hmd : '.' ∉ m) (hmh : '#' ∉ m) :
    JavaRef.parse (chain ++ '#' :: m) none =
      { package := none, classname := chain, membername := some m } := by
  have hdot : '.' ∉ chain ++ '#' :: m := by
    intro hc
    rcases List.mem_append.mp hc with h | h
    · exact hd h
    · rcases List.mem_cons.mp h with h | h
      · exact absurd h (by decide)
      · exact hmd h
  have h2 : ¬ (pySplit '.' (chain ++ '#' :: m)).length > 1 := by
    rw [pySplit_of_not_mem hdot]
    simp
  have hsplit : pySplit '#' (chain ++ '#' :: m) = [chain, m] := by
    rw [pySplit_append_sep, pySplit_of_not_mem hh, pySplit_of_not_mem hmh]
    rfl
  have h3 : (pySplit '#' (chain ++ '#' :: m)).length > 1 := by
    rw [hsplit]
    simp
  simp only [JavaRef.parse, if_neg h2, if_pos h3, hsplit]
  rfl

/-- C2: for any reference string of the grammar
`[package.]Name[$Name...][#member]` (names free of the three separator
characters, member free of dot and hash), parsing recovers the package,
the nesting chain and the member name exactly, and serializing the parsed
reference yields the original string. -/
theorem parse_serialize_roundtrip (pkg : Option (List Char))
    (names : List (List Char)) (mem : Option (List Char)) (hne : names ≠ [])
    (hnames : ∀ n ∈ names, '.' ∉ n ∧ '#' ∉ n ∧ '$' ∉ n)
    (hmem : ∀ m, mem = some m → '.' ∉ m ∧ '#' ∉ m) :
    (JavaRef.parse (mkRefString pkg names mem) none).package = pkg ∧
    (JavaRef.parse (mkRefString pkg names mem) none).simple_classnames = names ∧
    (JavaRef.parse (mkRefString pkg names mem) none).membername = mem ∧
    (JavaRef.parse (mkRefString pkg names mem) none).toString =
      mkRefString pkg names mem := by
  have hchain_dot : '.' ∉ pyJoin '$' names := by
    intro hc
    rcases mem_pyJoin '$' names '.' hc with h | ⟨w, hw, hcw⟩
    · exact absurd h (by decide)
    · exact (hnames w hw).1 hcw
  have hchain_hash : '#' ∉ pyJoin '$' names := by
    intro hc
    rcases mem_pyJoin '$' names '#' hc with h | ⟨w, hw, hcw⟩
    · exact absurd h (by decide)
    · exact (hnames w hw).2.1 hcw
  have hchain_split : pySplit '$' (pyJoin '$' names) = names :=
    pySplit_pyJoin hne (fun w hw => (hnames w hw).2.2)
  have hcore : JavaRef.parse (mkRefString pkg names mem) none =
      { package := pkg, classname := pyJoin '$' names, membername := mem } := by
    cases pkg with
    | none =>
      cases mem with
      | none =>
        have hmk : mkRefString none names none = pyJoin '$' names := by
          simp [mkRefString]
        rw [hmk]
        exact parse_chain_only _ hchain_dot hchain_hash
      | some m =>
        obtain ⟨hmd, hmh⟩ := hmem m rfl
        have hmk : mkRefString none names (some m) = pyJoin '$' names ++ '#' :: m := by
          simp [mkRefString]
        rw [hmk]
        exact parse_chain_member _ m hchain_dot hchain_hash hmd hmh
    | some p =>
      cases mem with
      | none =>
        have hmk : mkRefString (some p) names none = p ++ '.' :: pyJoin '$' names := by
          simp [mkRefString]
        rw [hmk, parse_append_pkg p _ hchain_dot none,
          parse_chain_only _ hchain_dot hchain_hash]
      | some m =>
        obtain ⟨hmd, hmh⟩ := hmem m rfl
        have hrest_dot : '.' ∉ pyJoin '$' names ++ '#' :: m := by
          intro hc
          rcases List.mem_append.mp hc with h | h
          · exact hchain_dot h
          · rcases List.mem_cons.mp h with h | h
            · exact absurd h (by decide)
            · exact hmd h
        have hmk : mkRefString (some p) names (some m) =
            p ++ '.' :: (pyJoin '$' names ++ '#' :: m) := by
          simp [mkRefString]
        rw [hmk, parse_append_pkg p _ hrest_dot none,
          parse_chain_member _ m hchain_dot hchain_hash hmd hmh]
  refine ⟨by rw [hcore], ?_, by rw [hcore], ?_⟩
  · rw [JavaRef.simple_classnames, hcore]
    exact hchain_split
  · rw [hcore]
    cases pkg <;> cases mem <;> simp [JavaRef.toString, mkRefString]

/-- C2 witness: the concrete reference string `com.foo.Outer$Inner#member`
round-trips with all components preserved. -/
theorem parse_serialize_roundtrip_witness :
    (JavaRef.parse "com.foo.Outer$Inner#member".toList none).package =
      some "com.foo".toList ∧
    (JavaRef.parse "com.foo.Outer$Inner#member".toList none).simple_classnames =
      ["Outer".toList, "Inner".toList] ∧
    (JavaRef.parse "com.foo.Outer$Inner#member".toList none).membername =
      some "member".toList ∧
    (JavaRef.parse "com.foo.Outer$Inner#member".toList none).toString =
      "com.foo.Outer$Inner#member".toList := by
  have h := parse_serialize_roundtrip (some "com.foo".toList)
    ["Outer".toList, "Inner".toList] (some "member".toList)
    (by decide) (by decide)
    (fun m hm => by
      injection hm with hm
      subst hm
      exact ⟨by decide, by decide⟩)
  have hmk : mkRefString (some "com.foo".toList)
      ["Outer".toList, "Inner".toList] (some "member".toList) =
      "com.foo.Outer$Inner#member".toList := by decide
  rw [hmk] at h
  exact h

theorem find?_first {α : Type} (p : α → Bool) (pre : List α) (x : α) (post : List α)
    (hpre : ∀ i ∈ pre, p i = false) (hx : p x = true) :
    List.find? p (pre ++ x :: post) = some x := by
  induction pre with
  | nil =>
    rw [List.nil_append]
    exact List.find?_cons_of_pos post hx
  | cons a pre ih =>
    rw [List.cons_append, List.find?_cons_of_neg _ (by simp [hpre a (by simp)])]
    exact ih (fun i hi => hpre i (by simp [hi]))

theorem parse_nodot_some (s m : List Char) (hd : '.' ∉ s) :
    JavaRef.parse s (some m) =
      { package := none, classname := s, membername := some m } := by
  have h2 : ¬ (pySplit '.' s).length > 1 := by
    rw [pySplit_of_not_mem hd]
    simp
  simp only [JavaRef.parse, if_neg h2]

/-- C1: `ImportResolver.resolve` scans the imports in declaration order;
when the first import path ending with `.` + the target's simple class
name exists, the result is a reference whose fully-qualified class
portion is exactly that import path and whose member name is the
target's member name unchanged; and it fails with the unresolved-
reference error precisely when no import path has that suffix. -/
theorem resolve_first_match_spec (imports : List ImportDecl) (target : List Char) :
    (∀ pre imp post, imports = pre ++ imp :: post →
        (∀ i ∈ pre,
          importMatches (JavaRef.parse target none).simple_classname i = false) →
        importMatches (JavaRef.parse target none).simple_classname imp = true →
        ∃ r, resolve imports target = Except.ok r ∧
          r.full_classname = some imp.path ∧
          r.membername = (JavaRef.parse target none).membername) ∧
    (resolve imports target = Except.error (.unresolvedReference target) ↔
      ∀ i ∈ imports,
        importMatches (JavaRef.parse target none).simple_classname i = false) := by
  constructor
  · intro pre imp post himports hpre himp
    subst himports
    have hfind : (pre ++ imp :: post).find?
        (importMatches (JavaRef.parse target none).simple_classname) = some imp :=
      find?_first _ pre imp post hpre himp
    obtain ⟨hd, hh, _⟩ := simple_classname_clean target
    have hsuf : ('.' :: (JavaRef.parse target none).simple_classname) <:+ imp.path := by
      have h1 := himp
      simp only [importMatches] at h1
      exact List.isSuffixOf_iff_suffix.mp h1
    obtain ⟨q, hq⟩ := hsuf
    refine ⟨JavaRef.parse imp.path ((JavaRef.parse target none).membername),
      ?_, ?_, ?_⟩
    · simp only [resolve, hfind]
    · rw [← hq, parse_append_pkg q _ hd]
      cases hm : (JavaRef.parse target none).membername with
      | none =>
        rw [parse_chain_only _ hd hh]
        rfl
      | some m =>
        rw [parse_nodot_some _ m hd]
        rfl
    · rw [← hq, parse_append_pkg q _ hd]
      cases hm : (JavaRef.parse target none).membername with
      | none =>
        rw [parse_chain_only _ hd hh]
      | some m =>
        rw [parse_nodot_some _ m hd]
  · constructor
    · intro herr i hi
      cases hfind : imports.find?
          (importMatches (JavaRef.parse target none).simple_classname) with
      | some imp =>
        simp only [resolve, hfind] at herr
        exact Except.noConfusion herr
      | none =>
        simpa using List.find?_eq_none.mp hfind i hi
    · intro hall
      have hfind : imports.find?
          (importMatches (JavaRef.parse target none).simple_classname) = none :=
        List.find?_eq_none.mpr (fun x hx => by simp [hall x hx])
      simp only [resolve, hfind]

/-- C1 witness: with imports `a.b.Foo, c.d.Foo` and bare target `Foo`,
resolution succeeds with fully-qualified class `a.b.Foo` (first match)
and no member name. -/
theorem resolve_first_match_spec_witness :
    ∃ r, resolve [⟨"a.b.Foo".toList⟩, ⟨"c.d.Foo".toList⟩] "Foo".toList =
        Except.ok r ∧
      r.full_classname = some "a.b.Foo".toList ∧
      r.membername = none := by
  have h := (resolve_first_match_spec [⟨"a.b.Foo".toList⟩, ⟨"c.d.Foo".toList⟩]
    "Foo".toList).1 [] ⟨"a.b.Foo".toList⟩ [⟨"c.d.Foo".toList⟩] rfl
    (by simp) (by decide)
  have hm : (JavaRef.parse "Foo".toList none).membername = none := by decide
  rw [hm] at h
  exact h

/-- C10: resolution depends only on the parsed target's simple class
name and member name — two targets agreeing on both resolve to the same
reference against any fixed import list, or both fail; in particular a
target's own package is ignored and replaced by the matching import's
package. -/
theorem resolve_extensional (imports : List ImportDecl) (t1 t2 : List Char)
    (hsc : (JavaRef.parse t1 none).simple_classname =
      (JavaRef.parse t2 none).simple_classname)
    (hm : (JavaRef.parse t1 none).membername =
      (JavaRef.parse t2 none).membername) :
    (∃ r, resolve imports t1 = Except.ok r ∧ resolve imports t2 = Except.ok r) ∨
    (resolve imports t1 = Except.error (.unresolvedReference t1) ∧
      resolve imports t2 = Except.error (.unresolvedReference t2)) := by
  cases hfind : imports.find?
      (importMatches (JavaRef.parse t2 none).simple_classname) with
  | some imp =>
    left
    refine ⟨JavaRef.parse imp.path ((JavaRef.parse t2 none).membername), ?_, ?_⟩
    · simp only [resolve, hsc, hm, hfind]
    · simp only [resolve, hfind]
  | none =>
    right
    constructor
    · simp only [resolve, hsc, hm, hfind]
    · simp only [resolve, hfind]

/-- C10 witness: the already-qualified target `a.b.Foo` and the bare
target `Foo` resolve to the same reference against import `x.y.Foo`;
the original package `a.b` is discarded. -/
theorem resolve_extensional_witness :
    ∃ r, resolve [⟨"x.y.Foo".toList⟩] "a.b.Foo".toList = Except.ok r ∧
      resolve [⟨"x.y.Foo".toList⟩] "Foo".toList = Except.ok r := by
  have h := resolve_extensional [⟨"x.y.Foo".toList⟩] "a.b.Foo".toList
    "Foo".toList (by decide) (by decide)
  rcases h with h | ⟨h1, h2⟩
  · exact h
  · rw [show resolve [⟨"x.y.Foo".toList⟩] "a.b.Foo".toList =
        Except.ok (JavaRef.parse "x.y.Foo".toList none) from rfl] at h1
    exact Except.noConfusion h1

/-- C4: loading the same path twice performs the expensive parse at most
once — the second load hits the cache (no parse) and returns exactly the
tree the first load produced, for any prior cache state. -/
theorem loadTree_single_parse {α : Type} (parseFile : List Char → α)
    (cache : List (List Char × α)) (path : List Char) :
    (loadTree parseFile (loadTree parseFile cache path).2.1 path).2.2 = false ∧
    (loadTree parseFile (loadTree parseFile cache path).2.1 path).1 =
      (loadTree parseFile cache path).1 := by
  cases h : cache.lookup path with
  | some t => simp [loadTree, h]
  | none => simp [loadTree, h, List.lookup]

/-- C6: the nested-class descent of `get_class_ast` returns the
declaration reached by following the chain when every name matches, and
fails with an error naming both the missing inner name and the enclosing
declaration's name at the first chain entry absent from the enclosing
declaration's nested types. -/
theorem descend_spec (d : Decl) (chain : List (List Char)) (file : List Char) :
    (∀ e, Reaches d chain e → descend d chain file = Except.ok e) ∧
    (∀ pre n suf e, chain = pre ++ n :: suf → Reaches d pre e →
      find_type n e.subtypes = none →
      descend d chain file = Except.error (.innerClassNotFound n e.name file)) := by
  constructor
  · intro e h
    induction h with
    | nil d => simp [descend]
    | cons n hfind htail ih =>
      simp only [descend, hfind]
      exact ih
  · intro pre n suf e hchain hreach hnone
    subst hchain
    induction hreach with
    | nil d => simp only [descend, hnone, List.nil_append]
    | cons n0 hfind htail ih =>
      rw [List.cons_append]
      simp only [descend, hfind]
      exact ih hnone

/-- C6 witness: on `Outer` containing `Inner`, the chain `[Inner]`
reaches the inner declaration, while the chain `[Missing]` fails with an
error naming `Missing` and `Outer`. -/
theorem descend_spec_witness :
    descend outerSample ["Inner".toList] "f".toList = Except.ok innerSample ∧
    descend outerSample ["Missing".toList] "f".toList =
      Except.error (.innerClassNotFound "Missing".toList "Outer".toList "f".toList) := by
  constructor
  · exact (descend_spec outerSample ["Inner".toList] "f".toList).1 innerSample
      (Reaches.cons "Inner".toList (by rfl) (Reaches.nil innerSample))
  · exact (descend_spec outerSample ["Missing".toList] "f".toList).2
      [] "Missing".toList [] outerSample rfl (Reaches.nil outerSample) (by rfl)

/-- C7 counterexample: a public member whose documentation comment is
present but empty is shown by `should_show`, contradicting the claim
that a non-empty comment is required. -/
theorem should_show_empty_doc :
    should_show emptyDocPublic = true ∧ emptyDocPublic.documentation = some [] := by
  constructor
  · rfl
  · rfl

/-- C7 (amended): a member is eligible for documentation emission if and
only if its documentation comment is present (not absent — it may be
empty) and its modifier set includes public visibility. -/
theorem should_show_iff (t : Doc) :
    should_show t = true ↔
      (t.documentation ≠ none ∧ "public".toList ∈ t.modifiers) := by
  simp [should_show, is_public, Option.isSome_iff_ne_none, List.contains_iff_exists_mem_beq]

/-- C8 counterexample: with the single field group `int a, b;`, looking
up `a` and looking up `b` return the very same result (the group), so
the lookup result does not distinguish the two declarators — the
function returns the enclosing group, not the matching declarator. -/
theorem find_field_returns_group :
    find_field [abGroup] "a".toList = find_field [abGroup] "b".toList ∧
    ("a".toList : List Char) ≠ "b".toList := by
  constructor
  · rfl
  · decide

/-- C8 (amended): `find_field` scans the field groups' declarators in
order and returns the first *group* containing a declarator with the
given name; it fails with the member-not-found error exactly when no
declarator of any group has the name. -/
theorem find_field_spec (fields : List FieldDecl) (name : List Char) :
    (∀ pre g post, fields = pre ++ g :: post →
        (∀ f ∈ pre, f.declarators.any (fun d => d == name) = false) →
        g.declarators.any (fun d => d == name) = true →
        find_field fields name = Except.ok g) ∧
    (find_field fields name = Except.error (.fieldNotFound name) ↔
      ∀ f ∈ fields, f.declarators.any (fun d => d == name) = false) := by
  constructor
  · intro pre g post hf hpre hg
    subst hf
    simp only [find_field, find?_first _ pre g post hpre hg]
  · simp only [find_field]
    cases h : fields.find? (fun f => f.declarators.any (fun d => d == name)) with
    | some f =>
      constructor
      · intro hcontra
        exact Except.noConfusion hcontra
      · intro hall
        have hp := List.find?_some h
        have hmem := List.mem_of_find?_eq_some h
        rw [hall f hmem] at hp
        exact Bool.noConfusion hp
    | none =>
      constructor
      · intro _ f hf
        exact Bool.eq_false_iff.mpr (List.find?_eq_none.mp h f hf)
      · intro _
        rfl

/-- C8 witness: looking up declarator `b` in the group `int a, b;`
returns that group. -/
theorem find_field_spec_witness :
    find_field [abGroup] "b".toList = Except.ok abGroup :=
  (find_field_spec [abGroup] "b".toList).1 [] abGroup [] rfl
    (by simp) (by decide)

theorem takeWhile_marker (x u : List Char) (hx : rbrace ∉ x) :
    (x ++ rbrace :: u).takeWhile (fun ch => ch != rbrace) = x ∧
    (x ++ rbrace :: u).dropWhile (fun ch => ch != rbrace) = rbrace :: u := by
  induction x with
  | nil =>
    constructor
    · rw [List.nil_append, List.takeWhile_cons_of_neg (by simp)]
    · rw [List.nil_append, List.dropWhile_cons_of_neg (by simp)]
  | cons c x ih =>
    have hc : c ≠ rbrace := fun h => hx (by simp [h])
    obtain ⟨iht, ihd⟩ := ih (fun h => hx (by simp [h]))
    constructor
    · rw [List.cons_append, List.takeWhile_cons_of_pos (by simp [hc]), iht]
    · rw [List.cons_append, List.dropWhile_cons_of_pos (by simp [hc]), ihd]

theorem matchLink_marker (x u : List Char) (hne : x ≠ []) (hx : rbrace ∉ x) :
    (matchLink (markerOf x ++ u)).map (fun pr => (pr.1, pr.2.val)) = some (x, u) := by
  have hdecomp : markerOf x ++ u =
      lbrace :: ("@link ".toList ++ (x ++ rbrace :: u)) := by
    simp [markerOf, linkHead]
  rw [hdecomp]
  have h6 : ("@link ".toList : List Char).length = 6 := rfl
  have hdrop : ("@link ".toList ++ (x ++ rbrace :: u)).drop 6 = x ++ rbrace :: u := by
    rw [← h6, List.drop_left]
  obtain ⟨htake, hdropw⟩ := takeWhile_marker x u hx
  have hcond : lbrace = lbrace ∧
      List.isPrefixOf "@link ".toList ("@link ".toList ++ (x ++ rbrace :: u)) ∧
      (("@link ".toList ++ (x ++ rbrace :: u)).drop 6).takeWhile
        (fun ch => ch != rbrace) ≠ [] ∧
      (("@link ".toList ++ (x ++ rbrace :: u)).drop 6).dropWhile
        (fun ch => ch != rbrace) ≠ [] := by
    refine ⟨rfl, ?_, ?_, ?_⟩
    · exact List.isPrefixOf_iff_prefix.mpr (List.prefix_append _ _)
    · rw [hdrop, htake]
      exact hne
    · rw [hdrop, hdropw]
      simp
  simp only [matchLink]
  rw [if_pos (And.intro trivial
    (And.intro hcond.2.1 (And.intro hcond.2.2.1 hcond.2.2.2)))]
  rw [Option.map_some']
  dsimp only
  rw [hdrop, htake, hdropw]
  simp

theorem matchLink_not_lbrace {c : Char} (hc : c ≠ lbrace) (s : List Char) :
    matchLink (c :: s) = none := by
  simp only [matchLink]
  rw [if_neg]
  intro hcond
  exact hc hcond.1

theorem linkSub_nil (repl : List Char → Except JdocError (List Char)) :
    linkSub repl [] = Except.ok [] := by
  rw [linkSub]

theorem linkSub_marker_step (repl : List Char → Except JdocError (List Char))
    (x u : List Char) (hne : x ≠ []) (hx : rbrace ∉ x) :
    linkSub repl (markerOf x ++ u) =
      match repl x, linkSub repl u with
      | .ok r, .ok out => .ok (r ++ out)
      | .error e, _ => .error e
      | .ok _, .error e => .error e := by
  have hmap := matchLink_marker x u hne hx
  have hdecomp : markerOf x ++ u =
      lbrace :: ("@link ".toList ++ (x ++ rbrace :: u)) := by
    simp [markerOf, linkHead]
  rw [hdecomp] at hmap ⊢
  cases hml : matchLink (lbrace :: ("@link ".toList ++ (x ++ rbrace :: u))) with
  | none =>
    rw [hml] at hmap
    simp at hmap
  | some pr =>
    obtain ⟨tgt, after, hlt⟩ := pr
    rw [hml] at hmap
    rw [Option.map_some'] at hmap
    have h1 : tgt = x := congrArg Prod.fst (Option.some.inj hmap)
    have h2 : after = u := congrArg Prod.snd (Option.some.inj hmap)
    subst h1
    subst h2
    rw [linkSub, hml]

theorem linkSub_seg (repl : List Char → Except JdocError (List Char))
    (t u out : List Char) (ht : lbrace ∉ t) (hu : linkSub repl u = Except.ok out) :
    linkSub repl (t ++ u) = Except.ok (t ++ out) := by
  induction t with
  | nil => simpa using hu
  | cons c t ih =>
    have hc : c ≠ lbrace := fun h => ht (by simp [h])
    have hnone : matchLink (c :: (t ++ u)) = none := matchLink_not_lbrace hc _
    rw [List.cons_append, linkSub, hnone, ih (fun hm => ht (by simp [hm]))]
    rfl

/-- C5: the translator rewrites each embedded link marker independently:
a comment assembled from brace-free segments interleaved with link
markers translates to the same segments with every marker replaced, left
to right and without overlap, by the cross-reference marker carrying the
serialized resolved reference for its own target. -/
theorem translate_links (imports : List ImportDecl) (t0 : List Char)
    (xs : List (List Char × List Char))
    (h0 : lbrace ∉ t0)
    (hx : ∀ p ∈ xs, p.1 ≠ [] ∧ rbrace ∉ p.1 ∧ lbrace ∉ p.2)
    (hres : ∀ p ∈ xs, exceptOk (resolve imports p.1) = true) :
    Javadoc.translate imports (chunksIn t0 xs) =
      Except.ok (chunksOut imports t0 xs) := by
  induction xs generalizing t0 with
  | nil =>
    simp only [chunksIn, chunksOut, Javadoc.translate]
    have := linkSub_seg (linkResolver imports) t0 [] [] h0 (linkSub_nil _)
    simpa using this
  | cons p rest ih =>
    obtain ⟨x, u⟩ := p
    obtain ⟨hne, hrb, hlb⟩ := hx (x, u) (by simp)
    have hresx := hres (x, u) (by simp)
    obtain ⟨r, hr⟩ : ∃ r, resolve imports x = Except.ok r := by
      cases hrx : resolve imports x with
      | ok r => exact ⟨r, rfl⟩
      | error e =>
        rw [hrx] at hresx
        simp [exceptOk] at hresx
    have hrest := ih u hlb (fun q hq => hx q (by simp [hq]))
      (fun q hq => hres q (by simp [hq]))
    simp only [Javadoc.translate] at hrest ⊢
    simp only [chunksIn, chunksOut]
    have hstep : linkSub (linkResolver imports) (markerOf x ++ chunksIn u rest) =
        Except.ok (rstOf r.toString ++ chunksOut imports u rest) := by
      rw [linkSub_marker_step (linkResolver imports) x (chunksIn u rest) hne hrb]
      simp only [linkResolver, hr, hrest]
    rw [List.append_assoc]
    rw [linkSub_seg (linkResolver imports) t0 _ _ h0 hstep]
    rw [hr]
    simp [List.append_assoc]

/-- C5 witness: `See Foo-link and Bar#baz-link` with imports `pkg.Foo`
and `pkg2.Bar` translates to both substitutions resolved independently
with the surrounding text unchanged. -/
theorem translate_links_witness :
    Javadoc.translate [⟨"pkg.Foo".toList⟩, ⟨"pkg2.Bar".toList⟩]
      (chunksIn "See ".toList
        [("Foo".toList, " and ".toList), ("Bar#baz".toList, [])]) =
      Except.ok (chunksOut [⟨"pkg.Foo".toList⟩, ⟨"pkg2.Bar".toList⟩]
        "See ".toList [("Foo".toList, " and ".toList), ("Bar#baz".toList, [])]) :=
  translate_links _ _ _ (by decide) (by decide) (by decide)

/-- C9: when the target declaration is an enum, the class page consists
of the header, the (visibility-filtered) Properties block, the
(visibility-filtered) Methods block, and then — separately — the
Constants block listing every constant in order, each paired with its
documentation when present and with no documentation lines when absent;
the empty-page placeholder never appears. -/
theorem run_enum_constants (jd : List Char → List Char) (ast : ClassAst)
    (h : ast.isEnum = true) :
    run jd ast =
      headerSection ast ++
      fieldsSection jd (ast.fields.filter (fun f => should_show f.info)) ++
      methodsSection jd (ast.methods.filter (fun m => should_show m.info)) ++
      constantsSection jd ast.constants := by
  simp [run, headerSection, fieldsSection, methodsSection, constantsSection, h]

/-- C9 witness: the sample enum page ends with the Constants block
containing `RED` (documented) and `GREEN` (undocumented), separate from
the other sections. -/
theorem run_enum_constants_witness :
    run id enumSample =
      headerSection enumSample ++
      fieldsSection id (enumSample.fields.filter (fun f => should_show f.info)) ++
      methodsSection id (enumSample.methods.filter (fun m => should_show m.info)) ++
      constantsSection id enumSample.constants :=
  run_enum_constants id enumSample rfl
